import Mathlib

/-!
Shallow embedding of the Skyblock auction-house flip finder
(`services/hypixelService.ts` together with `types.ts`).

JavaScript numbers are modelled as exact rationals (`ℚ`); `Math.round`
becomes `jsRound` (floor of x + 1/2, which is JS round-half-up);
`Math.floor` on array-length arithmetic becomes `Nat` division.
`Map`s are modelled as association lists with `List.lookup`, and the
stable JS `Array.sort` with a numeric comparator is modelled as a stable
sort by the same key.
-/

namespace AhFlipper

/-- JavaScript `Math.round`: rounds half away from zero upward, i.e. `⌊x + 1/2⌋`. -/
def jsRound (x : ℚ) : ℤ := ⌊x + 1/2⌋

/-- Item rarity tiers, from `types.ts`. -/
inductive Rarity where
  | COMMON
  | UNCOMMON
  | RARE
  | EPIC
  | LEGENDARY
  | MYTHIC
  | SPECIAL
  | VERY_SPECIAL
deriving DecidableEq, Repr

/-- Raw auction record from the Hypixel API, from `types.ts` (`RawAuction`). -/
structure RawAuction where
  uuid : String
  item_name : String
  tier : Rarity
  starting_bid : ℚ
  bin : Bool
  claimed : Bool
  item_lore : String
deriving DecidableEq, Repr

/-- An auction flip candidate, from `types.ts` (`AuctionFlip`).
`profit` is an integer because the service stores `Math.round(profit)`. -/
structure AuctionFlip where
  id : String
  itemName : String
  rarity : Rarity
  lore : String
  lowestBin : ℚ
  marketPrice : ℚ
  profit : ℤ
deriving DecidableEq, Repr

/-- A bazaar flip candidate, from `types.ts` (`BazaarFlip`). -/
structure BazaarFlip where
  id : String
  itemName : String
  buyPrice : ℚ
  sellPrice : ℚ
  profit : ℚ
  buyVolume : ℚ
  sellVolume : ℚ
deriving DecidableEq, Repr

/-- Display ingredient, from `types.ts` (`Ingredient`). -/
structure Ingredient where
  id : String
  name : String
  quantity : ℚ
deriving DecidableEq, Repr

/-- A crafting flip candidate, from `types.ts` (`CraftingFlip`).
`craftCost` and `profit` are integers because the service rounds them. -/
structure CraftingFlip where
  id : String
  itemName : String
  rarity : Rarity
  marketPrice : ℚ
  craftCost : ℤ
  profit : ℤ
  recipe : List Ingredient
deriving DecidableEq, Repr

/-- Source constant `PROFIT_THRESHOLD = 50000`. -/
def PROFIT_THRESHOLD : ℚ := 50000

/-- Source constant `MIN_PRICE = 1`. -/
def MIN_PRICE : ℚ := 1

/-- One character of the JS regex class `[a-f0-9k-or]` (a Minecraft color/style code). -/
def isColorCodeChar (c : Char) : Bool :=
  ('a' ≤ c && c ≤ 'f') || ('0' ≤ c && c ≤ '9') || ('k' ≤ c && c ≤ 'o') || c == 'r'

/-- Global replacement of the regex `/§[a-f0-9k-or]/` by the empty string,
scanning left to right over the character list. -/
def removeColorCodes : List Char → List Char
  | [] => []
  | [c] => [c]
  | c :: d :: rest =>
    if c = '§' ∧ isColorCodeChar d then removeColorCodes rest
    else c :: removeColorCodes (d :: rest)

/-- The JS `\s` whitespace class, restricted to the whitespace characters that
occur in item names (ASCII whitespace and the no-break space). -/
def isJsWhitespace (c : Char) : Bool :=
  c == ' ' || c == '\t' || c == '\n' || c == '\r' ||
  c == '\x0b' || c == '\x0c' || c == '\u00a0'

/-- One character of the JS regex class `[✪⚚\s]` used for the leading/trailing strip. -/
def isStripGlyph (c : Char) : Bool :=
  c == '✪' || c == '⚚' || isJsWhitespace c

/-- Drop a leading and a trailing run of characters satisfying `p`
(the effect of the anchored regex `/^[...]+|[...]+$/g`, and of `trim`). -/
def stripEnds (p : Char → Bool) (s : List Char) : List Char :=
  ((s.dropWhile p).reverse.dropWhile p).reverse

/-- Embeds `normalizeAuctionName` from `hypixelService.ts`: remove color codes, strip
leading/trailing decorative glyphs and whitespace, then `trim()`. -/
def normalizeAuctionName (name : String) : String :=
  String.mk (stripEnds isJsWhitespace (stripEnds isStripGlyph (removeColorCodes name.data)))

/-- JS `word.charAt(0).toUpperCase() + word.slice(1)` from `formatItemName`. -/
def capitalizeWord (w : String) : String :=
  match w.data with
  | [] => ""
  | c :: rest => String.mk (c.toUpper :: rest)

/-- Embeds `formatItemName` from `hypixelService.ts`: underscores to spaces, lowercase,
then capitalize each space-separated word. -/
def formatItemName (name : String) : String :=
  String.intercalate " "
    (((String.mk (name.data.map (fun c => if c = '_' then ' ' else c.toLower))).splitOn " ").map
      capitalizeWord)

/-- Embeds `calculateAhTax` from `hypixelService.ts`: 2% tax at one million coins and
above, 1% below. -/
def calculateAhTax (price : ℚ) : ℚ :=
  if price ≥ 1000000 then price * 0.02 else price * 0.01

/-- Source constant `GAP_THRESHOLD = 0.08` inside `findMarketPriceAuction`. -/
def GAP_THRESHOLD : ℚ := 0.08

/-- The wall-detection `for` loop of `findMarketPriceAuction`: walk adjacent
pairs; at the first pair whose relative gap exceeds `GAP_THRESHOLD` (guarded by
`priceA > 0`), return the second element of the pair; otherwise keep walking. -/
def scanWall : List RawAuction → Option RawAuction
  | a :: b :: rest =>
    if a.starting_bid > 0 ∧ (b.starting_bid - a.starting_bid) / a.starting_bid > GAP_THRESHOLD then
      some b
    else
      scanWall (b :: rest)
  | _ => none

/-- The IQR upper bound of `findMarketPriceAuction`:
`q1 = prices[floor(n/4)]`, `q3 = prices[floor(3n/4)]`,
`upperBound = q3 + 2.0 * (q3 - q1)`. -/
def upperBoundOf (marketCandidates : List RawAuction) : ℚ :=
  let prices := marketCandidates.map (·.starting_bid)
  let q1 := prices.getD (prices.length / 4) 0
  let q3 := prices.getD (prices.length * 3 / 4) 0
  q3 + 2.0 * (q3 - q1)

/-- The IQR trim of `findMarketPriceAuction`:
`marketCandidates.filter(a => a.starting_bid <= upperBound)`. -/
def trimFilter (marketCandidates : List RawAuction) : List RawAuction :=
  marketCandidates.filter (fun a => a.starting_bid ≤ upperBoundOf marketCandidates)

/-- Embeds `findMarketPriceAuction` from `hypixelService.ts`.  Fewer than 3 auctions:
fall back to the second-lowest (`sortedAuctions[1] || null`).  Otherwise drop
the cheapest, guard the quartile indices, IQR-trim, guard against
over-trimming, and either return the first item after the first >8% price jump
or, if none, the first trimmed candidate. -/
def findMarketPriceAuction (sortedAuctions : List RawAuction) : Option RawAuction :=
  if sortedAuctions.length < 3 then
    sortedAuctions[1]?
  else
    let marketCandidates := sortedAuctions.drop 1
    if marketCandidates.length / 4 ≥ marketCandidates.length ∨
        marketCandidates.length * 3 / 4 ≥ marketCandidates.length then
      marketCandidates[0]?
    else
      let filteredCandidates := trimFilter marketCandidates
      if filteredCandidates.length < 2 then
        marketCandidates[0]?
      else
        match scanWall filteredCandidates with
        | some wall => some wall
        | none => filteredCandidates[0]?

/-- Comparator key of `auctions.sort((a, b) => a.starting_bid - b.starting_bid)`. -/
def bidLE (a b : RawAuction) : Prop := a.starting_bid ≤ b.starting_bid

instance : DecidableRel bidLE := fun a b =>
  inferInstanceAs (Decidable (a.starting_bid ≤ b.starting_bid))

instance : IsTotal RawAuction bidLE :=
  ⟨fun a b => le_total a.starting_bid b.starting_bid⟩

instance : IsTrans RawAuction bidLE :=
  ⟨fun _ _ _ h h' => le_trans h h'⟩

/-- Models `auctions.sort((a, b) => a.starting_bid - b.starting_bid)`: a stable sort
ascending by `starting_bid`, modelled by insertion sort. -/
def sortByBid (auctions : List RawAuction) : List RawAuction :=
  auctions.insertionSort bidLE

/-- A price group is sorted ascending by `starting_bid`. -/
def sortedByBid (l : List RawAuction) : Prop := List.Sorted bidLE l

/-- The body of the per-group `for` loop of `fetchAuctionFlips` (one group of
auctions sharing a normalized name): `continue` becomes `none`, a `push`
becomes `some`. -/
def processGroup (itemName : String) (auctions : List RawAuction) : Option AuctionFlip :=
  if auctions.length < 2 then none
  else
    let sortedAuctions := sortByBid auctions
    match sortedAuctions[0]? with
    | none => none
    | some buyAuction =>
      let buyPrice := buyAuction.starting_bid
      if buyPrice < MIN_PRICE then none
      else
        match findMarketPriceAuction sortedAuctions with
        | none => none
        | some marketPriceAuction =>
          let marketPrice := marketPriceAuction.starting_bid
          if marketPrice ≤ buyPrice then none
          else
            let postTaxSellPrice := marketPrice - calculateAhTax marketPrice
            let profit := postTaxSellPrice - buyPrice
            if profit > PROFIT_THRESHOLD then
              some { id := buyAuction.uuid, itemName := itemName, rarity := buyAuction.tier,
                     lore := buyAuction.item_lore, lowestBin := buyPrice,
                     marketPrice := marketPrice, profit := jsRound profit }
            else none

/-- Embeds `fetchAuctionFlips`, restricted to its pure part: iterate the grouped
auctions and collect the flips each group yields. -/
def fetchAuctionFlips (groupedAuctions : List (String × List RawAuction)) : List AuctionFlip :=
  groupedAuctions.filterMap (fun g => processGroup g.1 g.2)

/-- Embeds the `quick_status` of a bazaar product, from the Hypixel API shape used by
`fetchBazaarFlips`. -/
structure QuickStatus where
  sellPrice : ℚ
  buyPrice : ℚ
  buyMovingWeek : ℚ
  sellMovingWeek : ℚ
deriving DecidableEq, Repr

/-- A bazaar product as consumed by `fetchBazaarFlips`: the `status &&` check
in the source is modelled by an optional `quick_status`. -/
structure BazaarProduct where
  product_id : String
  quick_status : Option QuickStatus
deriving DecidableEq, Repr

/-- The body of the per-product loop of `fetchBazaarFlips`. -/
def processQuote (productId : String) (product : BazaarProduct) : Option BazaarFlip :=
  match product.quick_status with
  | none => none
  | some status =>
    if status.sellPrice > 0 ∧ status.buyPrice > 0 then
      let buyFor := status.sellPrice
      let sellFor := status.buyPrice
      let profit := sellFor - buyFor
      if profit > 100 ∧ status.buyMovingWeek > 100 then
        some { id := productId, itemName := formatItemName product.product_id,
               buyPrice := buyFor, sellPrice := sellFor, profit := profit,
               buyVolume := status.buyMovingWeek, sellVolume := status.sellMovingWeek }
      else none
    else none

/-- Embeds `fetchBazaarFlips`, restricted to its pure part: iterate the product map
(an association list of product id to product) and keep the flips. -/
def fetchBazaarFlips (products : List (String × BazaarProduct)) : List BazaarFlip :=
  products.filterMap (fun p => processQuote p.1 p.2)

/-- A value of the `bazaarPrices` map built by `fetchBazaarPrices`. -/
structure PriceInfo where
  price : ℚ
  name : String
deriving DecidableEq, Repr

/-- A recipe ingredient returned by the recipe oracle
(`RecipeIngredient` in `geminiService.ts`). -/
structure RecipeIngredient where
  ingredientId : String
  quantity : ℚ
deriving DecidableEq, Repr

/-- Embeds `ItemForAnalysis` from `hypixelService.ts`. -/
structure ItemForAnalysis where
  id : String
  name : String
  lore : String
  rarity : Rarity
  price : ℚ
deriving DecidableEq, Repr

/-- Source constant `CRAFT_PROFIT_THRESHOLD = 100000`. -/
def CRAFT_PROFIT_THRESHOLD : ℚ := 100000

/-- The inner ingredient loop of `fetchCraftingFlips`: accumulate
`craftCost += materialInfo.price * ingredient.quantity` and the display recipe;
`break` with `isCraftable = false` at the first ingredient missing from the
bazaar price map becomes `none`. -/
def computeCraftCost (bazaarPrices : List (String × PriceInfo)) :
    List RecipeIngredient → ℚ → List Ingredient → Option (ℚ × List Ingredient)
  | [], craftCost, acc => some (craftCost, acc.reverse)
  | ing :: rest, craftCost, acc =>
    match bazaarPrices.lookup ing.ingredientId with
    | none => none
    | some materialInfo =>
      computeCraftCost bazaarPrices rest (craftCost + materialInfo.price * ing.quantity)
        ({ id := ing.ingredientId, name := materialInfo.name, quantity := ing.quantity } :: acc)

/-- The per-item decision of `fetchCraftingFlips`, given the ingredient list
the oracle returned for the item: skip empty recipes, skip non-craftable
items, require positive cost and profit above the threshold. -/
def processCraftItem (bazaarPrices : List (String × PriceInfo)) (item : ItemForAnalysis)
    (recipeIngredients : List RecipeIngredient) : Option CraftingFlip :=
  if recipeIngredients.length = 0 then none
  else
    match computeCraftCost bazaarPrices recipeIngredients 0 [] with
    | none => none
    | some (craftCost, recipeForDisplay) =>
      if craftCost > 0 then
        let profit := (item.price - calculateAhTax item.price) - craftCost
        if profit > CRAFT_PROFIT_THRESHOLD then
          some { id := item.id, itemName := item.name, rarity := item.rarity,
                 marketPrice := item.price, craftCost := jsRound craftCost,
                 profit := jsRound profit, recipe := recipeForDisplay }
        else none
      else none

/-- The main loop of `fetchCraftingFlips`: after each oracle call the counter
is incremented and `Math.round((processedCount / N) * 100)` is reported (first
component of the result, in call order); kept flips are the second component.
The oracle is a total function: `analyzeCraftingRecipe` catches its own
failures and returns `[]`. -/
def fetchCraftingFlipsLoop (bazaarPrices : List (String × PriceInfo))
    (oracle : String → List RecipeIngredient) (n : ℕ) :
    List ItemForAnalysis → ℕ → List ℤ × List CraftingFlip
  | [], _ => ([], [])
  | item :: rest, processedCount =>
    let report := jsRound (((processedCount + 1 : ℕ) : ℚ) / (n : ℚ) * 100)
    let tailResult := fetchCraftingFlipsLoop bazaarPrices oracle n rest (processedCount + 1)
    match processCraftItem bazaarPrices item (oracle item.name) with
    | some flip => (report :: tailResult.1, flip :: tailResult.2)
    | none => (report :: tailResult.1, tailResult.2)

/-- Embeds `fetchCraftingFlips`, restricted to its pure part: the progress values
passed to `progressCallback` (in order) together with the crafting flips. -/
def fetchCraftingFlips (bazaarPrices : List (String × PriceInfo))
    (oracle : String → List RecipeIngredient) (itemsToAnalyze : List ItemForAnalysis) :
    List ℤ × List CraftingFlip :=
  fetchCraftingFlipsLoop bazaarPrices oracle itemsToAnalyze.length itemsToAnalyze 0

/-- Total ingredient cost of a fully quoted recipe: the sum over ingredients
of unit price times quantity (0 for a missing quote; only used when no quote
is missing). -/
def recipeCost (bazaarPrices : List (String × PriceInfo))
    (recipe : List RecipeIngredient) : ℚ :=
  (recipe.map (fun ing =>
    match bazaarPrices.lookup ing.ingredientId with
    | some materialInfo => materialInfo.price * ing.quantity
    | none => 0)).sum

/-- An adjacent pair of the candidate list at positions `i`, `i+1` whose
relative price jump exceeds the 8% gap threshold. -/
def bigJumpAt (t : List RawAuction) (i : ℕ) : Prop :=
  ∃ a b, t[i]? = some a ∧ t[i + 1]? = some b ∧
    (b.starting_bid - a.starting_bid) / a.starting_bid > GAP_THRESHOLD

/-- Sample auction with a given price, used by concrete witnesses. -/
def auc (p : ℚ) : RawAuction :=
  { uuid := "u", item_name := "n", tier := Rarity.COMMON, starting_bid := p,
    bin := true, claimed := false, item_lore := "" }

/-- Sample analysis item, used by concrete witnesses. -/
def itemStub : ItemForAnalysis :=
  { id := "i", name := "s", lore := "", rarity := Rarity.COMMON, price := 0 }

/-- Sample bazaar quote, used by concrete witnesses: instant-buy cost 100,
instant-sell revenue 250, weekly buy volume 500. -/
def sampleStatus : QuickStatus :=
  { sellPrice := 100, buyPrice := 250, buyMovingWeek := 500, sellMovingWeek := 400 }

/-- Sample bazaar product, used by concrete witnesses. -/
def sampleProduct : BazaarProduct :=
  { product_id := "ENCHANTED_GOLD", quick_status := some sampleStatus }

/-- The bazaar flip that `sampleProduct` yields. -/
def sampleBazaarFlip : BazaarFlip :=
  { id := "EG", itemName := formatItemName "ENCHANTED_GOLD", buyPrice := 100,
    sellPrice := 250, profit := 150, buyVolume := 500, sellVolume := 400 }

/-- Sample bazaar price map, used by concrete witnesses. -/
def samplePrices : List (String × PriceInfo) :=
  [("ENCHANTED_DIAMOND", { price := 1000000, name := "Enchanted Diamond" })]

/-- Sample craftable item priced 2,000,000, used by concrete witnesses. -/
def sampleItem : ItemForAnalysis :=
  { id := "i1", name := "Diamond Thing", lore := "", rarity := Rarity.LEGENDARY,
    price := 2000000 }

/-- Sample recipe: one Enchanted Diamond, used by concrete witnesses. -/
def sampleRecipe : List RecipeIngredient :=
  [{ ingredientId := "ENCHANTED_DIAMOND", quantity := 1 }]

/-- The crafting flip that `sampleItem` and `sampleRecipe` yield:
net resale 1,960,000 after 2% tax, cost 1,000,000, profit 960,000. -/
def sampleCraftFlip : CraftingFlip :=
  { id := "i1", itemName := "Diamond Thing", rarity := Rarity.LEGENDARY,
    marketPrice := 2000000, craftCost := 1000000, profit := 960000,
    recipe := [{ id := "ENCHANTED_DIAMOND", name := "Enchanted Diamond", quantity := 1 }] }

/-- The auction flip that the group `[1,000,000, 1,300,000]` yields:
net resale 1,274,000 after 2% tax, profit 274,000. -/
def sampleAuctionFlip : AuctionFlip :=
  { id := "u", itemName := "Hyperion", rarity := Rarity.COMMON, lore := "",
    lowestBin := 1000000, marketPrice := 1300000, profit := 274000 }

/-- Claim C3: for every non-negative gross price, the tax is 1% of the price
below 1,000,000 and 2% of the price at or above 1,000,000, the 2% rate applying
inclusively at exactly 1,000,000, with no rounding inside the function. -/
theorem tax_tiered (p : ℚ) (_hp : 0 ≤ p) :
    (p < 1000000 → calculateAhTax p = 0.01 * p) ∧
    (1000000 ≤ p → calculateAhTax p = 0.02 * p) := by
  constructor <;> intro h <;> unfold calculateAhTax
  · rw [if_neg (by exact not_le.mpr h)]
    ring
  · rw [if_pos h]
    ring

/-- Witness for `tax_tiered`: both branches at the boundary prices 999,999 and
1,000,000. -/
theorem tax_tiered_witness :
    (0 : ℚ) ≤ 999999 ∧ (999999 : ℚ) < 1000000 ∧ calculateAhTax 999999 = 0.01 * 999999 ∧
    (0 : ℚ) ≤ 1000000 ∧ calculateAhTax 1000000 = 0.02 * 1000000 :=
  ⟨by norm_num, by norm_num, (tax_tiered 999999 (by norm_num)).1 (by norm_num),
   by norm_num, (tax_tiered 1000000 (by norm_num)).2 (by norm_num)⟩

/-- Claim C8: the identity normalizer maps the raw names `"§6✪ Hyperion"` and
`"Hyperion"` to the same identity, namely `"Hyperion"`. -/
theorem normalize_same_identity :
    normalizeAuctionName "§6✪ Hyperion" = normalizeAuctionName "Hyperion" ∧
    normalizeAuctionName "§6✪ Hyperion" = "Hyperion" := by
  constructor <;> rfl

/-- Claim C4: for every ascending-sorted price group with fewer than 3 members
the estimator returns the entry at index 1 — the second-cheapest listing if it
exists and `none` otherwise. -/
theorem small_group_second_cheapest (l : List RawAuction)
    (_hs : sortedByBid l) (h : l.length < 3) :
    findMarketPriceAuction l = l[1]? := by
  unfold findMarketPriceAuction
  rw [if_pos h]

/-- Witness for `small_group_second_cheapest`: the group `[100, 150]` yields
the listing priced 150, and a singleton group yields `none`. -/
theorem small_group_second_cheapest_witness :
    sortedByBid [auc 100, auc 150] ∧
    findMarketPriceAuction [auc 100, auc 150] = some (auc 150) ∧
    findMarketPriceAuction [auc 100] = none := by
  refine ⟨?_, ?_, ?_⟩
  · simp only [sortedByBid, List.sorted_cons, List.mem_singleton, List.not_mem_nil,
      bidLE, auc, List.sorted_singleton, forall_eq]
    norm_num
  · rw [small_group_second_cheapest [auc 100, auc 150] ?_ (by simp)]
    · rfl
    · simp only [sortedByBid, List.sorted_cons, List.mem_singleton, List.not_mem_nil,
        bidLE, auc, List.sorted_singleton, forall_eq]
      norm_num
  · rw [small_group_second_cheapest [auc 100] ?_ (by simp)]
    · rfl
    · simp [sortedByBid]

lemma bigJumpAt_cons (a : RawAuction) (t : List RawAuction) (i : ℕ) :
    bigJumpAt (a :: t) (i + 1) ↔ bigJumpAt t i := by
  simp only [bigJumpAt, List.getElem?_cons_succ]

lemma scanWall_of_first_jump (t : List RawAuction) (hpos : ∀ a ∈ t, 0 < a.starting_bid) :
    ∀ i, bigJumpAt t i → (∀ j, j < i → ¬ bigJumpAt t j) → scanWall t = t[i + 1]? := by
  induction t with
  | nil =>
    intro i hj _
    obtain ⟨x, y, hx, -, -⟩ := hj
    simp at hx
  | cons a t ih =>
    rcases t with _ | ⟨b, rest⟩
    · intro i hj _
      obtain ⟨x, y, -, hy, -⟩ := hj
      rw [List.getElem?_cons_succ] at hy
      simp at hy
    · intro i hj hmin
      cases i with
      | zero =>
        obtain ⟨x, y, hx, hy, hgap⟩ := hj
        rw [List.getElem?_cons_zero, Option.some.injEq] at hx
        rw [List.getElem?_cons_succ, List.getElem?_cons_zero, Option.some.injEq] at hy
        subst hx
        subst hy
        unfold scanWall
        rw [if_pos ⟨hpos a (by simp), hgap⟩]
        simp
      | succ i' =>
        have h0 : ¬ bigJumpAt (a :: b :: rest) 0 := hmin 0 (Nat.succ_pos i')
        have hcond : ¬ (a.starting_bid > 0 ∧
            (b.starting_bid - a.starting_bid) / a.starting_bid > GAP_THRESHOLD) := by
          rintro ⟨-, hg⟩
          exact h0 ⟨a, b, by simp, by simp, hg⟩
        unfold scanWall
        rw [if_neg hcond, List.getElem?_cons_succ]
        exact ih (fun x hx => hpos x (List.mem_cons_of_mem a hx)) i'
          ((bigJumpAt_cons a (b :: rest) i').mp hj)
          (fun j hj' hbj =>
            hmin (j + 1) (Nat.succ_lt_succ hj') ((bigJumpAt_cons a (b :: rest) j).mpr hbj))

lemma scanWall_of_no_jump (t : List RawAuction) :
    (∀ j, ¬ bigJumpAt t j) → scanWall t = none := by
  induction t with
  | nil => intro _; rfl
  | cons a t ih =>
    rcases t with _ | ⟨b, rest⟩
    · intro _; rfl
    · intro hno
      have hcond : ¬ (a.starting_bid > 0 ∧
          (b.starting_bid - a.starting_bid) / a.starting_bid > GAP_THRESHOLD) := by
        rintro ⟨-, hg⟩
        exact hno 0 ⟨a, b, by simp, by simp, hg⟩
      unfold scanWall
      rw [if_neg hcond]
      exact ih (fun j hbj => hno (j + 1) ((bigJumpAt_cons a (b :: rest) j).mpr hbj))

lemma scanWall_eq_some_index (t : List RawAuction) (w : RawAuction) :
    scanWall t = some w → ∃ i, t[i + 1]? = some w := by
  induction t with
  | nil =>
    intro h
    rw [show scanWall [] = none from rfl] at h
    cases h
  | cons a t ih =>
    rcases t with _ | ⟨b, rest⟩
    · intro h
      rw [show scanWall [a] = none from rfl] at h
      cases h
    · intro h
      unfold scanWall at h
      by_cases hc : a.starting_bid > 0 ∧
          (b.starting_bid - a.starting_bid) / a.starting_bid > GAP_THRESHOLD
      · rw [if_pos hc] at h
        exact ⟨0, by simpa using h⟩
      · rw [if_neg hc] at h
        obtain ⟨i, hi⟩ := ih h
        exact ⟨i + 1, by rw [List.getElem?_cons_succ]; exact hi⟩

lemma getD_bid_eq (l : List RawAuction) (i : ℕ) (hi : i < l.length) :
    (l.map (·.starting_bid)).getD i 0 = (l.get ⟨i, hi⟩).starting_bid := by
  rw [List.getD_eq_getElem?_getD, List.getElem?_map, List.getElem?_eq_getElem hi]
  rfl

lemma sorted_le_of_getElem (t : List RawAuction) (hts : sortedByBid t) {i j : ℕ}
    (hij : i ≤ j) (hj : j < t.length) :
    (t.get ⟨i, lt_of_le_of_lt hij hj⟩).starting_bid ≤ (t.get ⟨j, hj⟩).starting_bid := by
  rcases eq_or_lt_of_le hij with rfl | hlt
  · exact le_refl _
  · exact hts.rel_get_of_lt (show (⟨i, lt_of_le_of_lt hij hj⟩ : Fin t.length) < ⟨j, hj⟩ from hlt)

lemma q1_index_lt (n : ℕ) (h1 : 1 ≤ n) : n / 4 < n :=
  Nat.div_lt_self (by omega) (by omega)

lemma q3_index_lt (n : ℕ) (h1 : 1 ≤ n) : n * 3 / 4 < n := by
  rw [Nat.div_lt_iff_lt_mul (by omega)]
  omega

lemma q3_le_upperBound (cand : List RawAuction) (hs : sortedByBid cand)
    (h1 : 1 ≤ cand.length) :
    (cand.get ⟨cand.length * 3 / 4, q3_index_lt _ h1⟩).starting_bid ≤ upperBoundOf cand := by
  have hi1 : cand.length / 4 < cand.length := q1_index_lt _ h1
  have hi3 : cand.length * 3 / 4 < cand.length := q3_index_lt _ h1
  have hq : (cand.get ⟨cand.length / 4, hi1⟩).starting_bid ≤
      (cand.get ⟨cand.length * 3 / 4, hi3⟩).starting_bid :=
    sorted_le_of_getElem cand hs (Nat.div_le_div_right (by omega)) hi3
  unfold upperBoundOf
  simp only [List.length_map]
  rw [getD_bid_eq cand _ hi1, getD_bid_eq cand _ hi3]
  linarith [hq]

lemma trim_keeps_initial (cand : List RawAuction) (hs : sortedByBid cand)
    (h1 : 1 ≤ cand.length) :
    ∀ a ∈ cand.take (cand.length * 3 / 4 + 1), a.starting_bid ≤ upperBoundOf cand := by
  intro a ha
  obtain ⟨i, hi, rfl⟩ := List.mem_iff_getElem.mp ha
  have hlen : i < cand.length := by
    have := List.length_take (cand.length * 3 / 4 + 1) cand
    have h3 := q3_index_lt cand.length h1
    omega
  rw [List.getElem_take]
  have hile : i ≤ cand.length * 3 / 4 := by
    have := List.length_take (cand.length * 3 / 4 + 1) cand
    omega
  calc (cand.get ⟨i, hlen⟩).starting_bid
      ≤ (cand.get ⟨cand.length * 3 / 4, q3_index_lt _ h1⟩).starting_bid :=
        sorted_le_of_getElem cand hs hile (q3_index_lt _ h1)
    _ ≤ upperBoundOf cand := q3_le_upperBound cand hs h1

lemma trim_mem_of_initial (cand : List RawAuction) (hs : sortedByBid cand)
    (h1 : 1 ≤ cand.length) :
    ∀ a ∈ cand.take (cand.length * 3 / 4 + 1), a ∈ trimFilter cand := by
  intro a ha
  exact List.mem_filter.mpr ⟨List.mem_of_mem_take ha,
    decide_eq_true (trim_keeps_initial cand hs h1 a ha)⟩

lemma trim_length_ge (cand : List RawAuction) (hs : sortedByBid cand)
    (h1 : 1 ≤ cand.length) :
    cand.length * 3 / 4 + 1 ≤ (trimFilter cand).length := by
  have hk : cand.length * 3 / 4 + 1 ≤ cand.length := q3_index_lt _ h1
  have hsplit : trimFilter cand =
      (cand.take (cand.length * 3 / 4 + 1)).filter
        (fun a => a.starting_bid ≤ upperBoundOf cand) ++
      (cand.drop (cand.length * 3 / 4 + 1)).filter
        (fun a => a.starting_bid ≤ upperBoundOf cand) := by
    unfold trimFilter
    rw [← List.filter_append, List.take_append_drop]
  have hall : (cand.take (cand.length * 3 / 4 + 1)).filter
      (fun a => a.starting_bid ≤ upperBoundOf cand) =
      cand.take (cand.length * 3 / 4 + 1) :=
    List.filter_eq_self.mpr (fun a ha => decide_eq_true (trim_keeps_initial cand hs h1 a ha))
  rw [hsplit, List.length_append, hall, List.length_take]
  omega

lemma trim_length_two (cand : List RawAuction) (hs : sortedByBid cand)
    (h2 : 2 ≤ cand.length) :
    2 ≤ (trimFilter cand).length := by
  have h34 : 1 ≤ cand.length * 3 / 4 := by
    rw [Nat.le_div_iff_mul_le (by omega)]
    omega
  have := trim_length_ge cand hs (by omega)
  omega

lemma findMarketPrice_of_ge3 (l : List RawAuction) (hs : sortedByBid l)
    (h3 : 3 ≤ l.length) :
    findMarketPriceAuction l =
      match scanWall (trimFilter (l.drop 1)) with
      | some wall => some wall
      | none => (trimFilter (l.drop 1))[0]? := by
  have hnot : ¬ l.length < 3 := by omega
  have hds : sortedByBid (l.drop 1) := List.Pairwise.sublist (List.drop_sublist 1 l) hs
  have hdl : 2 ≤ (l.drop 1).length := by
    rw [List.length_drop]
    omega
  have hg : ¬((l.drop 1).length / 4 ≥ (l.drop 1).length ∨
      (l.drop 1).length * 3 / 4 ≥ (l.drop 1).length) := by
    push_neg
    exact ⟨q1_index_lt _ (by omega), q3_index_lt _ (by omega)⟩
  have ht : ¬((trimFilter (l.drop 1)).length < 2) := by
    have := trim_length_two (l.drop 1) hds hdl
    omega
  simp only [findMarketPriceAuction, hnot, hg, ht, if_false]

/-- Claim C10: for every sorted candidate list of length at least 2, the
quartile indices `floor(n/4)` and `floor(3n/4)` are strictly below `n`, IQR
trimming retains at least the `floor(3n/4)+1` cheapest candidates (hence at
least 2), so the out-of-range guard and the fewer-than-2-after-trimming guard
of the estimator are both false, making those fallback branches unreachable. -/
theorem iqr_branches_unreachable (cand : List RawAuction) (hs : sortedByBid cand)
    (h2 : 2 ≤ cand.length) :
    cand.length / 4 < cand.length ∧
    cand.length * 3 / 4 < cand.length ∧
    (∀ a ∈ cand.take (cand.length * 3 / 4 + 1), a ∈ trimFilter cand) ∧
    2 ≤ (trimFilter cand).length ∧
    ¬(cand.length / 4 ≥ cand.length ∨ cand.length * 3 / 4 ≥ cand.length) ∧
    ¬((trimFilter cand).length < 2) := by
  have h1 : 1 ≤ cand.length := by omega
  refine ⟨q1_index_lt _ h1, q3_index_lt _ h1, trim_mem_of_initial cand hs h1,
    trim_length_two cand hs h2, ?_, ?_⟩
  · push_neg
    exact ⟨q1_index_lt _ h1, q3_index_lt _ h1⟩
  · have := trim_length_two cand hs h2
    omega

/-- Witness for `iqr_branches_unreachable` at the two-candidate list
`[100, 150]`. -/
theorem iqr_branches_unreachable_witness :
    2 ≤ ([auc 100, auc 150] : List RawAuction).length ∧
    ¬((trimFilter [auc 100, auc 150]).length < 2) :=
  ⟨by simp,
   (iqr_branches_unreachable [auc 100, auc 150]
      (by norm_num [sortedByBid, List.sorted_cons, List.forall_mem_cons, bidLE, auc])
      (by simp)).2.2.2.2.2⟩

/-- Claim C1: for a sorted group of at least 3 positively priced listings, the
estimator returns the candidate immediately after the first adjacent pair of
the trimmed candidate list whose relative jump exceeds the 8% threshold, and
the first (cheapest) trimmed candidate when no adjacent pair jumps by more
than 8%. -/
theorem wall_detection_first_jump (l : List RawAuction) (hs : sortedByBid l)
    (hpos : ∀ a ∈ l, 0 < a.starting_bid) (h3 : 3 ≤ l.length) :
    (∀ i, bigJumpAt (trimFilter (l.drop 1)) i →
        (∀ j, j < i → ¬ bigJumpAt (trimFilter (l.drop 1)) j) →
        findMarketPriceAuction l = (trimFilter (l.drop 1))[i + 1]?) ∧
    ((∀ j, ¬ bigJumpAt (trimFilter (l.drop 1)) j) →
        findMarketPriceAuction l = (trimFilter (l.drop 1))[0]?) := by
  have hred := findMarketPrice_of_ge3 l hs h3
  have hposT : ∀ a ∈ trimFilter (l.drop 1), 0 < a.starting_bid := fun a ha =>
    hpos a (List.mem_of_mem_drop (List.mem_of_mem_filter ha))
  constructor
  · intro i hji hmin
    have hsw := scanWall_of_first_jump _ hposT i hji hmin
    obtain ⟨x, y, hx, hy, -⟩ := hji
    rw [hred, hsw, hy]
  · intro hno
    rw [hred, scanWall_of_no_jump _ hno]

/-- Witness for `wall_detection_first_jump`: for the sorted group
`[100, 105, 110, 500]` the trimmed candidates are `[105, 110, 500]`, the first
jump above 8% is from 110 to 500, and the estimate is the listing priced 500. -/
theorem wall_detection_first_jump_witness :
    findMarketPriceAuction [auc 100, auc 105, auc 110, auc 500] = some (auc 500) := by
  have ht2 : trimFilter ([auc 100, auc 105, auc 110, auc 500].drop 1) =
      [auc 105, auc 110, auc 500] := by
    norm_num [trimFilter, upperBoundOf, auc, List.filter]
  have hjump : bigJumpAt [auc 105, auc 110, auc 500] 1 :=
    ⟨auc 110, auc 500, by simp, by simp, by norm_num [auc, GAP_THRESHOLD]⟩
  have hmin : ∀ j, j < 1 → ¬ bigJumpAt [auc 105, auc 110, auc 500] j := by
    intro j hj
    interval_cases j
    rintro ⟨x, y, hx, hy, hg⟩
    simp only [List.getElem?_cons_zero, List.getElem?_cons_succ, Option.some.injEq] at hx hy
    subst hx
    subst hy
    norm_num [auc, GAP_THRESHOLD] at hg
  have happ := (wall_detection_first_jump [auc 100, auc 105, auc 110, auc 500]
      (by norm_num [sortedByBid, List.sorted_cons, List.forall_mem_cons, bidLE, auc])
      (by norm_num [List.forall_mem_cons, auc])
      (by simp)).1 1 (by rw [ht2]; exact hjump) (by rw [ht2]; exact hmin)
  rw [happ, ht2]
  rfl

/-- Claim C5: for a sorted group of at least 3 positively priced listings, the
estimate is a member of the trimmed candidate list, its price is at least the
price of every trimmed candidate before it, and its price is strictly below
the price of every candidate that IQR trimming excluded. -/
theorem estimate_member_of_trimmed (l : List RawAuction) (hs : sortedByBid l)
    (_hpos : ∀ a ∈ l, 0 < a.starting_bid) (h3 : 3 ≤ l.length) :
    ∃ r i, ∃ hi : i < (trimFilter (l.drop 1)).length,
      findMarketPriceAuction l = some r ∧
      (trimFilter (l.drop 1))[i] = r ∧
      (∀ a ∈ (trimFilter (l.drop 1)).take i, a.starting_bid ≤ r.starting_bid) ∧
      (∀ a ∈ l.drop 1, a ∉ trimFilter (l.drop 1) → r.starting_bid < a.starting_bid) := by
  have hred := findMarketPrice_of_ge3 l hs h3
  have hds : sortedByBid (l.drop 1) := List.Pairwise.sublist (List.drop_sublist 1 l) hs
  have hdl : 2 ≤ (l.drop 1).length := by
    rw [List.length_drop]
    omega
  have hts : sortedByBid (trimFilter (l.drop 1)) :=
    List.Pairwise.sublist (List.filter_sublist _) hds
  have h2t : 2 ≤ (trimFilter (l.drop 1)).length := trim_length_two _ hds hdl
  have hub : ∀ r ∈ trimFilter (l.drop 1), ∀ a ∈ l.drop 1, a ∉ trimFilter (l.drop 1) →
      r.starting_bid < a.starting_bid := by
    intro r hr a ha hna
    have hr2 : r ∈ (l.drop 1).filter
        (fun a => decide (a.starting_bid ≤ upperBoundOf (l.drop 1))) := hr
    have hrl : r.starting_bid ≤ upperBoundOf (l.drop 1) :=
      of_decide_eq_true (List.mem_filter.mp hr2).2
    have hal : upperBoundOf (l.drop 1) < a.starting_bid := by
      by_contra hle
      push_neg at hle
      exact hna (List.mem_filter.mpr ⟨ha, decide_eq_true hle⟩)
    linarith
  cases hsw : scanWall (trimFilter (l.drop 1)) with
  | none =>
    refine ⟨(trimFilter (l.drop 1)).get ⟨0, by omega⟩, 0, by omega, ?_, rfl, by simp,
      hub _ (List.getElem_mem _)⟩
    rw [hred, hsw]
    exact List.getElem?_eq_getElem (by omega)
  | some w =>
    obtain ⟨i, hi⟩ := scanWall_eq_some_index _ w hsw
    obtain ⟨hilt, hw⟩ := List.getElem?_eq_some.mp hi
    refine ⟨w, i + 1, hilt, ?_, hw, ?_, hub w ?_⟩
    · rw [hred, hsw]
    · intro a ha
      obtain ⟨j, hj, rfl⟩ := List.mem_iff_getElem.mp ha
      have hjlt : j < i + 1 := by
        have := List.length_take (i + 1) (trimFilter (l.drop 1))
        omega
      rw [List.getElem_take]
      rw [← hw]
      exact sorted_le_of_getElem _ hts (by omega) hilt
    · rw [← hw]
      exact List.getElem_mem _

/-- Witness for `estimate_member_of_trimmed` at the clustered sorted group
`[100, 102, 104, 106]` (no jump above 8% anywhere). -/
theorem estimate_member_of_trimmed_witness :
    ∃ r i, ∃ hi : i < (trimFilter ([auc 100, auc 102, auc 104, auc 106].drop 1)).length,
      findMarketPriceAuction [auc 100, auc 102, auc 104, auc 106] = some r ∧
      (trimFilter ([auc 100, auc 102, auc 104, auc 106].drop 1))[i] = r ∧
      (∀ a ∈ (trimFilter ([auc 100, auc 102, auc 104, auc 106].drop 1)).take i,
        a.starting_bid ≤ r.starting_bid) ∧
      (∀ a ∈ [auc 100, auc 102, auc 104, auc 106].drop 1,
        a ∉ trimFilter ([auc 100, auc 102, auc 104, auc 106].drop 1) →
        r.starting_bid < a.starting_bid) :=
  estimate_member_of_trimmed [auc 100, auc 102, auc 104, auc 106]
    (by norm_num [sortedByBid, List.sorted_cons, List.forall_mem_cons, bidLE, auc])
    (by norm_num [List.forall_mem_cons, auc])
    (by simp)

/-- Claim C2: a group yields an auction flip only if it has at least 2 members,
the estimator returns an estimate priced strictly above the cheapest listing,
and the tax-adjusted profit exceeds the minimum-profit threshold; the emitted
flip's profit is exactly that value, rounded. -/
theorem auction_flip_only_if (itemName : String) (auctions : List RawAuction)
    (flip : AuctionFlip) (h : processGroup itemName auctions = some flip) :
    2 ≤ auctions.length ∧
    ∃ buy est, (sortByBid auctions)[0]? = some buy ∧
      (∀ a ∈ auctions, buy.starting_bid ≤ a.starting_bid) ∧
      findMarketPriceAuction (sortByBid auctions) = some est ∧
      buy.starting_bid < est.starting_bid ∧
      PROFIT_THRESHOLD < (est.starting_bid - calculateAhTax est.starting_bid) - buy.starting_bid ∧
      flip.profit = jsRound ((est.starting_bid - calculateAhTax est.starting_bid) -
        buy.starting_bid) := by
  simp only [processGroup] at h
  split at h
  next h2 => exact absurd h (by simp)
  next h2 =>
    split at h
    next hbuy => exact absurd h (by simp)
    next buyAuction hbuy =>
      split at h
      next hmin => exact absurd h (by simp)
      next hmin =>
        split at h
        next hest => exact absurd h (by simp)
        next est hest =>
          split at h
          next hle => exact absurd h (by simp)
          next hle =>
            split at h
            next hprof =>
              have hf := Option.some.inj h
              subst hf
              have hsorted : List.Sorted bidLE (sortByBid auctions) :=
                List.sorted_insertionSort bidLE auctions
              have hperm : (sortByBid auctions).Perm auctions :=
                List.perm_insertionSort bidLE auctions
              refine ⟨by omega, buyAuction, est, hbuy, ?_, hest, lt_of_not_le hle,
                hprof, rfl⟩
              intro a ha
              have ha' : a ∈ sortByBid auctions := hperm.mem_iff.mpr ha
              cases hsb : sortByBid auctions with
              | nil =>
                rw [hsb] at hbuy
                exact absurd hbuy (by simp)
              | cons b tl =>
                rw [hsb] at hbuy
                rw [List.getElem?_cons_zero, Option.some.injEq] at hbuy
                subst hbuy
                rw [hsb] at ha' hsorted
                rcases List.mem_cons.mp ha' with rfl | hmem
                · exact le_refl _
                · exact List.rel_of_sorted_cons hsorted a hmem
            next hprof => exact absurd h (by simp)

/-- Witness for `auction_flip_only_if`: the group `[1,000,000, 1,300,000]`
yields a flip with profit exactly 274,000 (1,300,000 minus the 2% tax of
26,000, minus the 1,000,000 buy price). -/
theorem auction_flip_only_if_witness :
    processGroup "Hyperion" [auc 1000000, auc 1300000] = some sampleAuctionFlip ∧
    2 ≤ ([auc 1000000, auc 1300000] : List RawAuction).length := by
  have heval : processGroup "Hyperion" [auc 1000000, auc 1300000] =
      some sampleAuctionFlip := by
    norm_num [processGroup, sortByBid, List.insertionSort, List.orderedInsert, bidLE,
      findMarketPriceAuction, calculateAhTax, MIN_PRICE, PROFIT_THRESHOLD, jsRound,
      auc, sampleAuctionFlip]
  exact ⟨heval, (auction_flip_only_if "Hyperion" [auc 1000000, auc 1300000]
    sampleAuctionFlip heval).1⟩

/-- Claim C7: every emitted bazaar flip comes from a quote whose per-unit
profit (instant-sell unit price minus instant-buy unit price) exceeds the
fixed minimum of 100 and whose weekly buy volume exceeds the fixed floor of
100, and the flip's profit field equals exactly that difference. -/
theorem bazaar_flip_only_if (products : List (String × BazaarProduct)) (flip : BazaarFlip)
    (h : flip ∈ fetchBazaarFlips products) :
    ∃ p status, p ∈ products ∧ p.2.quick_status = some status ∧
      processQuote p.1 p.2 = some flip ∧
      flip.profit = status.buyPrice - status.sellPrice ∧
      flip.buyPrice = status.sellPrice ∧ flip.sellPrice = status.buyPrice ∧
      100 < flip.profit ∧ 100 < status.buyMovingWeek := by
  unfold fetchBazaarFlips at h
  obtain ⟨p, hp, hq⟩ := List.mem_filterMap.mp h
  have hq0 := hq
  simp only [processQuote] at hq
  split at hq
  next => exact absurd hq (by simp)
  next status hst =>
    split at hq
    next hpos =>
      split at hq
      next hkeep =>
        have hf := Option.some.inj hq
        subst hf
        exact ⟨p, status, hp, hst, hq0, rfl, rfl, rfl, hkeep.1, hkeep.2⟩
      next => exact absurd hq (by simp)
    next => exact absurd hq (by simp)

/-- Witness for `bazaar_flip_only_if`: one quote with instant-buy 100,
instant-sell 250, weekly buy volume 500 yields a flip with profit 150. -/
theorem bazaar_flip_only_if_witness :
    ∃ p status, p ∈ [("EG", sampleProduct)] ∧ p.2.quick_status = some status ∧
      processQuote p.1 p.2 = some sampleBazaarFlip ∧
      sampleBazaarFlip.profit = status.buyPrice - status.sellPrice ∧
      sampleBazaarFlip.buyPrice = status.sellPrice ∧
      sampleBazaarFlip.sellPrice = status.buyPrice ∧
      100 < sampleBazaarFlip.profit ∧ 100 < status.buyMovingWeek :=
  bazaar_flip_only_if [("EG", sampleProduct)] sampleBazaarFlip (by
    norm_num [fetchBazaarFlips, List.filterMap, processQuote, sampleProduct,
      sampleStatus, sampleBazaarFlip])

lemma computeCraftCost_none (prices : List (String × PriceInfo)) :
    ∀ recipe : List RecipeIngredient,
      (∃ ing ∈ recipe, prices.lookup ing.ingredientId = none) →
      ∀ (c : ℚ) (acc : List Ingredient), computeCraftCost prices recipe c acc = none := by
  intro recipe
  induction recipe with
  | nil =>
    rintro ⟨ing, hmem, -⟩
    simp at hmem
  | cons ing rest ih =>
    rintro ⟨ing', hmem', hnone⟩ c acc
    simp only [computeCraftCost]
    cases hl : prices.lookup ing.ingredientId with
    | none => rfl
    | some mi =>
      rcases List.mem_cons.mp hmem' with rfl | hmem2
      · rw [hl] at hnone
        cases hnone
      · exact ih ⟨ing', hmem2, hnone⟩ _ _

lemma computeCraftCost_some (prices : List (String × PriceInfo)) :
    ∀ recipe : List RecipeIngredient,
      (∀ ing ∈ recipe, (prices.lookup ing.ingredientId).isSome) →
      ∀ (c : ℚ) (acc : List Ingredient), ∃ disp,
        computeCraftCost prices recipe c acc = some (c + recipeCost prices recipe, disp) := by
  intro recipe
  induction recipe with
  | nil =>
    intro _ c acc
    exact ⟨acc.reverse, by simp [computeCraftCost, recipeCost]⟩
  | cons ing rest ih =>
    intro hall c acc
    obtain ⟨mi, hmi⟩ := Option.isSome_iff_exists.mp (hall ing (by simp))
    obtain ⟨disp, hd⟩ := ih (fun i hi => hall i (List.mem_cons_of_mem _ hi))
      (c + mi.price * ing.quantity)
      ({ id := ing.ingredientId, name := mi.name, quantity := ing.quantity } :: acc)
    refine ⟨disp, ?_⟩
    simp only [computeCraftCost, hmi]
    rw [hd]
    have : c + mi.price * ing.quantity + recipeCost prices rest =
        c + recipeCost prices (ing :: rest) := by
      simp only [recipeCost, List.map_cons, List.sum_cons, hmi]
      ring
    rw [this]

/-- Claim C6: a crafting candidate with any unquoted ingredient is entirely
excluded (no partial cost); a candidate with an empty recipe is skipped; and a
fully quoted candidate is kept only with a positive total cost (the sum of
unit price times quantity over the ingredients) and a tax-adjusted profit
above the minimum threshold, the emitted cost and profit being those values
rounded. -/
theorem crafting_all_or_nothing (prices : List (String × PriceInfo)) (item : ItemForAnalysis)
    (recipe : List RecipeIngredient) :
    ((∃ ing ∈ recipe, prices.lookup ing.ingredientId = none) →
      processCraftItem prices item recipe = none) ∧
    (recipe = [] → processCraftItem prices item recipe = none) ∧
    ((∀ ing ∈ recipe, (prices.lookup ing.ingredientId).isSome) →
      ∀ flip, processCraftItem prices item recipe = some flip →
        flip.craftCost = jsRound (recipeCost prices recipe) ∧
        0 < recipeCost prices recipe ∧
        CRAFT_PROFIT_THRESHOLD <
          (item.price - calculateAhTax item.price) - recipeCost prices recipe ∧
        flip.profit = jsRound ((item.price - calculateAhTax item.price) -
          recipeCost prices recipe)) := by
  refine ⟨?_, ?_, ?_⟩
  · intro hmiss
    unfold processCraftItem
    by_cases hlen : recipe.length = 0
    · rw [if_pos hlen]
    · rw [if_neg hlen, computeCraftCost_none prices recipe hmiss 0 []]
  · rintro rfl
    rfl
  · intro hall flip hflip
    by_cases hlen : recipe.length = 0
    · unfold processCraftItem at hflip
      rw [if_pos hlen] at hflip
      cases hflip
    · obtain ⟨disp, hd⟩ := computeCraftCost_some prices recipe hall 0 []
      rw [zero_add] at hd
      unfold processCraftItem at hflip
      rw [if_neg hlen] at hflip
      simp only [hd] at hflip
      split at hflip
      next hcost =>
        split at hflip
        next hprof =>
          have hf := Option.some.inj hflip
          subst hf
          exact ⟨rfl, hcost, hprof, rfl⟩
        next => exact absurd hflip (by simp)
      next => exact absurd hflip (by simp)

/-- Witness for `crafting_all_or_nothing`: a missing quote excludes the
candidate; an empty recipe is skipped; and the sample item (resale 2,000,000,
one ingredient costing 1,000,000) is kept with cost 1,000,000 and profit
960,000. -/
theorem crafting_all_or_nothing_witness :
    processCraftItem samplePrices sampleItem
      [{ ingredientId := "MISSING_ITEM", quantity := 1 }] = none ∧
    processCraftItem samplePrices sampleItem [] = none ∧
    (sampleCraftFlip.craftCost = jsRound (recipeCost samplePrices sampleRecipe) ∧
     0 < recipeCost samplePrices sampleRecipe ∧
     CRAFT_PROFIT_THRESHOLD <
       (sampleItem.price - calculateAhTax sampleItem.price) -
         recipeCost samplePrices sampleRecipe ∧
     sampleCraftFlip.profit = jsRound ((sampleItem.price - calculateAhTax sampleItem.price) -
       recipeCost samplePrices sampleRecipe)) := by
  refine ⟨?_, ?_, ?_⟩
  · exact (crafting_all_or_nothing samplePrices sampleItem _).1
      ⟨{ ingredientId := "MISSING_ITEM", quantity := 1 }, by simp, by simp [samplePrices]⟩
  · exact (crafting_all_or_nothing samplePrices sampleItem []).2.1 rfl
  · exact (crafting_all_or_nothing samplePrices sampleItem sampleRecipe).2.2
      (by simp [samplePrices, sampleRecipe])
      sampleCraftFlip
      (by norm_num [processCraftItem, computeCraftCost, samplePrices, sampleItem,
        sampleRecipe, sampleCraftFlip, calculateAhTax, jsRound, CRAFT_PROFIT_THRESHOLD])

lemma craftLoop_fst (prices : List (String × PriceInfo))
    (oracle : String → List RecipeIngredient) (n : ℕ) :
    ∀ (items : List ItemForAnalysis) (c : ℕ),
      (fetchCraftingFlipsLoop prices oracle n items c).1 =
        (List.range items.length).map
          (fun k => jsRound (((c + k + 1 : ℕ) : ℚ) / (n : ℚ) * 100)) := by
  intro items
  induction items with
  | nil => intro c; rfl
  | cons item rest ih =>
    intro c
    have hstep : (fetchCraftingFlipsLoop prices oracle n (item :: rest) c).1 =
        jsRound (((c + 1 : ℕ) : ℚ) / (n : ℚ) * 100) ::
          (fetchCraftingFlipsLoop prices oracle n rest (c + 1)).1 := by
      cases hpc : processCraftItem prices item (oracle item.name) <;>
        simp [fetchCraftingFlipsLoop, hpc]
    rw [hstep, ih (c + 1), List.length_cons, List.range_succ_eq_map, List.map_cons,
      List.map_map, List.cons.injEq]
    constructor
    · congr 1
      try push_cast
      try ring
    · apply List.map_congr_left
      intro a _
      simp only [Function.comp_apply]
      congr 1
      push_cast
      ring

/-- Claim C9 (amended): the progress values reported by the crafting pipeline
are, in order, `round(k/N × 100)` for `k = 1..N` (one report after each
candidate resolves, craftable or not), the sequence is non-decreasing, and its
final value — once all `N` candidates have resolved — is exactly 100.  (The
value can already reach 100 one report early for large `N`; see
`progress_hits_100_early`.) -/
theorem progress_amended (prices : List (String × PriceInfo))
    (oracle : String → List RecipeIngredient) (items : List ItemForAnalysis) :
    (fetchCraftingFlips prices oracle items).1 =
      (List.range items.length).map
        (fun k => jsRound (((k + 1 : ℕ) : ℚ) / ((items.length : ℕ) : ℚ) * 100)) ∧
    List.Pairwise (· ≤ ·) (fetchCraftingFlips prices oracle items).1 ∧
    (items ≠ [] → (fetchCraftingFlips prices oracle items).1.getLast? = some 100) := by
  have hfst : (fetchCraftingFlips prices oracle items).1 =
      (List.range items.length).map
        (fun k => jsRound (((k + 1 : ℕ) : ℚ) / ((items.length : ℕ) : ℚ) * 100)) := by
    unfold fetchCraftingFlips
    rw [craftLoop_fst]
    apply List.map_congr_left
    intro k _
    congr 1
    push_cast
    ring
  have hmono : ∀ a b : ℕ, a < b →
      jsRound (((a + 1 : ℕ) : ℚ) / ((items.length : ℕ) : ℚ) * 100) ≤
      jsRound (((b + 1 : ℕ) : ℚ) / ((items.length : ℕ) : ℚ) * 100) := by
    intro a b hab
    apply Int.floor_le_floor
    have h1 : ((a + 1 : ℕ) : ℚ) ≤ ((b + 1 : ℕ) : ℚ) := by
      exact_mod_cast Nat.succ_le_succ (le_of_lt hab)
    have h2 : ((a + 1 : ℕ) : ℚ) / ((items.length : ℕ) : ℚ) ≤
        ((b + 1 : ℕ) : ℚ) / ((items.length : ℕ) : ℚ) := by
      rw [div_eq_mul_inv, div_eq_mul_inv]
      exact mul_le_mul_of_nonneg_right h1 (inv_nonneg.mpr (Nat.cast_nonneg _))
    linarith
  refine ⟨hfst, ?_, ?_⟩
  · rw [hfst]
    exact List.pairwise_map.mpr
      ((List.pairwise_lt_range items.length).imp (fun hab => hmono _ _ hab))
  · intro hne
    rw [hfst]
    obtain ⟨m, hm⟩ := Nat.exists_eq_succ_of_ne_zero
      (fun h0 => hne (List.eq_nil_of_length_eq_zero h0))
    rw [hm, List.range_succ, List.map_append, List.map_cons, List.map_nil,
      List.getLast?_concat]
    have harg : ((m + 1 : ℕ) : ℚ) / (((m + 1 : ℕ) : ℕ) : ℚ) * 100 = 100 := by
      rw [div_self (by exact_mod_cast Nat.succ_ne_zero m)]
      ring
    rw [harg]
    norm_num [jsRound]

/-- Witness for `progress_amended`: a single candidate reports exactly `[100]`,
whose last value is 100. -/
theorem progress_amended_witness :
    (fetchCraftingFlips [] (fun _ => []) [itemStub]).1.getLast? = some 100 :=
  (progress_amended [] (fun _ => []) [itemStub]).2.2 (by simp)

/-- Counterexample to claim C9 as stated: with 200 candidates the progress
callback already receives the value 100 after the 199th candidate resolves
(`round(199/200 × 100) = round(99.5) = 100`), i.e. before all 200 candidates
have resolved, so the reported value does not reach 100 *precisely when* all
candidates have resolved. -/
theorem progress_hits_100_early :
    ((fetchCraftingFlips [] (fun _ => []) (List.replicate 200 itemStub)).1)[198]? =
      some 100 ∧
    ((fetchCraftingFlips [] (fun _ => []) (List.replicate 200 itemStub)).1).length = 200 := by
  have hfst : (fetchCraftingFlips [] (fun _ => []) (List.replicate 200 itemStub)).1 =
      (List.range 200).map
        (fun k => jsRound (((0 + k + 1 : ℕ) : ℚ) / ((200 : ℕ) : ℚ) * 100)) := by
    unfold fetchCraftingFlips
    rw [craftLoop_fst, List.length_replicate]
  rw [hfst]
  constructor
  · rw [List.getElem?_map, List.getElem?_range (by norm_num)]
    simp only [Option.map_some']
    congr 1
    norm_num [jsRound]
  · rw [List.length_map, List.length_range]

end AhFlipper
